import Mathlib

/-!
Verification of the `Bitmap` bit-vector component.

The repository ships the class declaration in `src/Bitmap.h`: a fixed-capacity,
word-packed bit vector with a cached running count of set bits, per-bit
accessors and mutators with bounds checking, first-zero / first-one searches,
and debug string renderings.  The member-function bodies live in a translation
unit that is not part of `src/`, so every operation below is modelled from the
specification (its doc comment says so); the constants, field names and
signatures follow `src/Bitmap.h`.

Machine integers are modelled as `Nat` with explicit bounds: each storage word
is a 64-bit `size_t` (a `Nat` kept below `2 ^ BITS_PER_WORD`), the cached
counter `count_of_ones_` is a C `int` modelled as `Int`, and fallible calls
return `Except BitmapError`.
-/

namespace BitmapModel

/-- `Bitmap::BITS_PER_WORD = sizeof(size_t) * 8`, i.e. 64 on the 64-bit
platforms the fixed array is sized for (`src/Bitmap.h:47`). -/
def BITS_PER_WORD : Nat := 64

/-- `Bitmap::MAX_BITS` (`src/Bitmap.h:46`). -/
def MAX_BITS : Nat := 10240

/-- `Bitmap::MAX_WORDS` (`src/Bitmap.h:48`). -/
def MAX_WORDS : Nat := (MAX_BITS + BITS_PER_WORD - 1) / BITS_PER_WORD

/-- The two error classes of the spec's error taxonomy (§7): out-of-range
bit index, and capacity exceeding the fixed-variant maximum. -/
inductive BitmapError where
  | outOfRange
  | capacityExceeded
deriving DecidableEq

/-- The state of a `Bitmap` object (`src/Bitmap.h:76-83`): capacity
`number_of_bits_`, derived `number_of_words_`, the packed word array
`bitmap_` (modelled as the list of its first `number_of_words_` words,
each `< 2 ^ BITS_PER_WORD`), and the cached set-bit tally `count_of_ones_`
(a C `int`, modelled as `Int`).  The mutex is not part of the sequential
state. -/
structure Bitmap where
  number_of_bits : Nat
  number_of_words : Nat
  bitmap : List Nat
  count_of_ones : Int
deriving DecidableEq

/-- Number of valid (non-padding) bit positions inside word `j` of a vector
with the given capacity: 64 for full words, `capacity mod 64` for a trailing
partial word, 0 beyond. -/
def validBitsInWord (capacity j : Nat) : Nat :=
  min BITS_PER_WORD (capacity - j * BITS_PER_WORD)

/-- Modelled from the spec (§4 Construction): `Bitmap::Bitmap(number_of_bits,
initial_bit_value)` whose body is not under `src/`.  Fails with the capacity
error when `capacity > MAX_BITS`; otherwise fills each of the
`ceil(capacity / 64)` words with the initial value's bit pattern, masks the
padding bits of the final word back to 0, and sets the tally to `capacity`
for an all-ones fill and 0 for an all-zeroes fill. -/
def create (capacity : Nat) (initial_bit_value : Nat) : Except BitmapError Bitmap :=
  if MAX_BITS < capacity then .error .capacityExceeded
  else
    .ok {
      number_of_bits := capacity
      number_of_words := (capacity + BITS_PER_WORD - 1) / BITS_PER_WORD
      bitmap := (List.range ((capacity + BITS_PER_WORD - 1) / BITS_PER_WORD)).map
        (fun j => if initial_bit_value = 1 then 2 ^ validBitsInWord capacity j - 1 else 0)
      count_of_ones := if initial_bit_value = 1 then (capacity : Int) else 0 }

/-- Value of logical bit `i` of a word list: bit `i mod 64` of word
`i div 64` (spec §3: bit `i` lives in `words[i / bits_per_word]` at position
`i % bits_per_word`); words past the end of the list read as 0. -/
def listBit (ws : List Nat) (i : Nat) : Bool :=
  Nat.testBit (ws.getD (i / BITS_PER_WORD) 0) (i % BITS_PER_WORD)

/-- Raw (unchecked) value of logical bit `i` of the state. -/
def Bitmap.getBit (b : Bitmap) (i : Nat) : Bool :=
  listBit b.bitmap i

/-- Modelled from the spec (§4 Single-bit read): `Bitmap::isSet`, body not
under `src/`.  Out-of-range indices fail; otherwise returns whether bit
`bit_number` is 1. -/
def Bitmap.isSet (b : Bitmap) (bit_number : Nat) : Except BitmapError Bool :=
  if b.number_of_bits ≤ bit_number then .error .outOfRange
  else .ok (b.getBit bit_number)

/-- Modelled from the spec (§4 Single-bit read): `Bitmap::bitValue`, body not
under `src/`.  Same as `isSet` but returns the bit as an `unsigned char`
0 or 1. -/
def Bitmap.bitValue (b : Bitmap) (bit_number : Nat) : Except BitmapError Nat :=
  if b.number_of_bits ≤ bit_number then .error .outOfRange
  else .ok (if b.getBit bit_number then 1 else 0)

/-- 64-bit mask clearing bit `pos`: the bitwise complement of `2 ^ pos`
within one word. -/
def clearMask (pos : Nat) : Nat := (2 ^ BITS_PER_WORD - 1) ^^^ 2 ^ pos

/-- Shared unchecked write used by the checked mutators: forces bit `i` to
`v` inside its word and adjusts the tally by +1 on a 0→1 transition, −1 on
1→0, and 0 when the bit is unchanged (spec §4 Single-bit write). -/
def Bitmap.setBitRaw (b : Bitmap) (i : Nat) (v : Bool) : Bitmap :=
  let w := i / BITS_PER_WORD
  let pos := i % BITS_PER_WORD
  let word := b.bitmap.getD w 0
  let word2 := if v then word ||| 2 ^ pos else word &&& clearMask pos
  { b with
    bitmap := b.bitmap.set w word2
    count_of_ones := b.count_of_ones +
      (if b.getBit i = v then 0 else if v then 1 else -1) }

/-- Modelled from the spec (§4 Single-bit write): `Bitmap::setBitTo`, body not
under `src/`.  Validates the index before mutating (spec §7: no partial
mutation), then sets bit `bit_number` to `new_bit_value != 0` and adjusts the
tally by the transition. -/
def Bitmap.setBitTo (b : Bitmap) (bit_number : Nat) (new_bit_value : Nat) :
    Except BitmapError Bitmap :=
  if b.number_of_bits ≤ bit_number then .error .outOfRange
  else .ok (b.setBitRaw bit_number (new_bit_value != 0))

/-- Modelled from the spec (§4 Test-and-set): `Bitmap::testAndSet`, body not
under `src/`.  Validates, then returns the prior value of the bit as 0/1
together with the state in which the bit is forced to 1. -/
def Bitmap.testAndSet (b : Bitmap) (bit_number : Nat) :
    Except BitmapError (Nat × Bitmap) :=
  if b.number_of_bits ≤ bit_number then .error .outOfRange
  else .ok ((if b.getBit bit_number then 1 else 0), b.setBitRaw bit_number true)

/-- Modelled from the spec (§4 Test-and-clear): `Bitmap::testAndClear`, body
not under `src/`.  Validates, then returns the prior value of the bit as 0/1
together with the state in which the bit is forced to 0. -/
def Bitmap.testAndClear (b : Bitmap) (bit_number : Nat) :
    Except BitmapError (Nat × Bitmap) :=
  if b.number_of_bits ≤ bit_number then .error .outOfRange
  else .ok ((if b.getBit bit_number then 1 else 0), b.setBitRaw bit_number false)

/-- Number of trailing 1-bits of a word: the position of its lowest-order
zero bit (the spec's §4 first-zero trick `~word & (word + 1)`, phrased as a
trailing-ones count). -/
def trailingOnes (w : Nat) : Nat :=
  if h : w % 2 = 0 then 0 else 1 + trailingOnes (w / 2)
termination_by w
decreasing_by omega

/-- Number of trailing 0-bits of a nonzero word: the position of its
lowest-order set bit (0 on the word 0, which the search never passes in). -/
def trailingZeros (w : Nat) : Nat :=
  if h : w = 0 then 0
  else if w % 2 = 1 then 0 else 1 + trailingZeros (w / 2)
termination_by w
decreasing_by omega

/-- Modelled from the spec (§4 First-zero search): scan the words in index
order starting at global bit offset `base`; each word is first masked with an
all-ones pattern over its padding region (bits at or beyond `capacity`), so a
padding index is never returned; a word equal to all-ones is skipped,
otherwise the global index of its lowest-order zero bit is returned.  The
sentinel −1 signals that every valid bit is 1. -/
def firstZeroAux : List Nat → Nat → Nat → Int
  | [], _, _ => -1
  | w :: rest, capacity, base =>
    if w ||| (2 ^ BITS_PER_WORD - 2 ^ min BITS_PER_WORD (capacity - base))
        = 2 ^ BITS_PER_WORD - 1
    then firstZeroAux rest capacity (base + BITS_PER_WORD)
    else ((base + trailingOnes
      (w ||| (2 ^ BITS_PER_WORD - 2 ^ min BITS_PER_WORD (capacity - base))) : Nat) : Int)

/-- Modelled from the spec (§4 First-one search, symmetric to first-zero):
scan the words in index order; each word is masked down to its valid bits
(padding ignored); a masked word equal to 0 is skipped, otherwise the global
index of its lowest-order set bit is returned; −1 if every valid bit is 0. -/
def firstOneAux : List Nat → Nat → Nat → Int
  | [], _, _ => -1
  | w :: rest, capacity, base =>
    if w &&& (2 ^ min BITS_PER_WORD (capacity - base) - 1) = 0
    then firstOneAux rest capacity (base + BITS_PER_WORD)
    else ((base + trailingZeros
      (w &&& (2 ^ min BITS_PER_WORD (capacity - base) - 1)) : Nat) : Int)

/-- Modelled from the spec (§4): `Bitmap::getFirstZero`, body not under
`src/`; returns −1 if every valid bit is 1. -/
def Bitmap.getFirstZero (b : Bitmap) : Int :=
  firstZeroAux b.bitmap b.number_of_bits 0

/-- Modelled from the spec (§4): `Bitmap::getFirstOne`, body not under
`src/`; returns −1 if every valid bit is 0. -/
def Bitmap.getFirstOne (b : Bitmap) : Int :=
  firstOneAux b.bitmap b.number_of_bits 0

/-- Modelled from the spec (§4 Get-and-set-first-zero): `Bitmap::
getAndSetFirstZero`, body not under `src/`.  Performs the first-zero search
and, when it finds an index, immediately sets that bit (updating the tally)
in the same critical section; returns the index (or −1) and the resulting
state. -/
def Bitmap.getAndSetFirstZero (b : Bitmap) : Int × Bitmap :=
  let r := b.getFirstZero
  if 0 ≤ r then (r, b.setBitRaw r.toNat true) else (r, b)

/-- Modelled from the spec (§4, symmetric): `Bitmap::getAndClearFirstOne`,
body not under `src/`. -/
def Bitmap.getAndClearFirstOne (b : Bitmap) : Int × Bitmap :=
  let r := b.getFirstOne
  if 0 ≤ r then (r, b.setBitRaw r.toNat false) else (r, b)

/-- Modelled from the spec (§4 Counting): `Bitmap::countOnes` returns the
cached `count_of_ones_` directly. -/
def Bitmap.countOnes (b : Bitmap) : Int := b.count_of_ones

/-- Modelled from the spec (§4 Counting): `Bitmap::countZeroes` returns
`capacity - countOnes()`. -/
def Bitmap.countZeroes (b : Bitmap) : Int :=
  (b.number_of_bits : Int) - b.countOnes

/-- Modelled from the spec (§6/§8): `Bitmap::asBinaryString`, body not under
`src/`.  One character per logical bit, length exactly `capacity`; the
character at position `k` is '1' exactly when bit `k` is set (the digit
order within the rendering is left open by the spec §9; the position-`k`
contract of §8 fixes this one). -/
def Bitmap.asBinaryString (b : Bitmap) : String :=
  String.mk ((List.range b.number_of_bits).map
    (fun k => if b.getBit k then '1' else '0'))

/-- Bit `i` of the state as 0 or 1, counting only logical (index below
capacity) bits: the building block of the hex rendering's nibbles. -/
def Bitmap.logicalBitNat (b : Bitmap) (i : Nat) : Nat :=
  if i < b.number_of_bits ∧ b.getBit i = true then 1 else 0

/-- Value (0–15) of nibble `j` of the logical bit pattern: bits
`4 * j .. 4 * j + 3`, low bit least significant, padding bits contributing
nothing. -/
def Bitmap.nibble (b : Bitmap) (j : Nat) : Nat :=
  b.logicalBitNat (4 * j) + 2 * b.logicalBitNat (4 * j + 1)
    + 4 * b.logicalBitNat (4 * j + 2) + 8 * b.logicalBitNat (4 * j + 3)

/-- Modelled from the spec (§6): `Bitmap::asHexString`, body not under
`src/`.  One hex character per nibble of the logical bit pattern,
`ceil(capacity / 4)` characters in all, most-significant nibble first,
covering only the logical `capacity` bits. -/
def Bitmap.asHexString (b : Bitmap) : String :=
  String.mk (((List.range ((b.number_of_bits + 3) / 4)).reverse).map
    (fun j => Nat.digitChar (b.nibble j)))

/-- Population count of the valid (index below capacity) bits of the state:
the value the cached tally must equal (spec §3 invariant). -/
def Bitmap.popcountValid (b : Bitmap) : Nat :=
  ((Finset.range b.number_of_bits).filter (fun i => b.getBit i = true)).card

/-- Structural well-formedness of a state: the derived word count and the
stored array length match the capacity, every word fits in 64 bits, padding
bits read 0, the tally equals the valid-bit population count, and the
capacity respects the fixed-variant maximum.  Established at construction
and preserved by every operation. -/
structure WF (b : Bitmap) : Prop where
  words_eq : b.number_of_words = (b.number_of_bits + BITS_PER_WORD - 1) / BITS_PER_WORD
  len_eq : b.bitmap.length = b.number_of_words
  bounded : ∀ w ∈ b.bitmap, w < 2 ^ BITS_PER_WORD
  padding : ∀ i, b.number_of_bits ≤ i → b.getBit i = false
  count : b.count_of_ones = (b.popcountValid : Int)
  cap_le : b.number_of_bits ≤ MAX_BITS

/-- The states reachable through the public interface: a freshly constructed
vector, or the successful result of any mutator applied to a reachable
state. -/
inductive Reachable : Bitmap → Prop where
  | create (capacity v : Nat) (b : Bitmap) : create capacity v = .ok b → Reachable b
  | setBitTo (b : Bitmap) (i v : Nat) (b2 : Bitmap) : Reachable b →
      b.setBitTo i v = .ok b2 → Reachable b2
  | testAndSet (b : Bitmap) (i r : Nat) (b2 : Bitmap) : Reachable b →
      b.testAndSet i = .ok (r, b2) → Reachable b2
  | testAndClear (b : Bitmap) (i r : Nat) (b2 : Bitmap) : Reachable b →
      b.testAndClear i = .ok (r, b2) → Reachable b2
  | getAndSetFirstZero (b : Bitmap) : Reachable b →
      Reachable b.getAndSetFirstZero.2
  | getAndClearFirstOne (b : Bitmap) : Reachable b →
      Reachable b.getAndClearFirstOne.2

/-- Repeated application of `getAndSetFirstZero`, keeping only the state:
`iterGASFZ b n` models the state after `n` successive calls starting
from `b`. -/
def iterGASFZ (b : Bitmap) : Nat → Bitmap
  | 0 => b
  | n + 1 => ((iterGASFZ b n).getAndSetFirstZero).2

/-- A small concrete state used to instantiate the claim theorems: the
result of constructing an all-zero vector of capacity 3. -/
def bm3 : Bitmap :=
  { number_of_bits := 3, number_of_words := 1, bitmap := [0], count_of_ones := 0 }

/-! ### Basic arithmetic and bit-level lemmas -/

theorem BITS_PER_WORD_eq : BITS_PER_WORD = 64 := rfl

theorem MAX_BITS_eq : MAX_BITS = 10240 := rfl

/-- Reading a logical bit of a cons cell: below 64 it is a bit of the head
word, otherwise a bit of the tail shifted down one word. -/
theorem listBit_cons (w : Nat) (rest : List Nat) (t : Nat) :
    listBit (w :: rest) t =
      if t < BITS_PER_WORD then Nat.testBit w t
      else listBit rest (t - BITS_PER_WORD) := by
  simp only [listBit, BITS_PER_WORD_eq]
  by_cases h : t < 64
  · have h1 : t / 64 = 0 := Nat.div_eq_of_lt h
    have h2 : t % 64 = t := Nat.mod_eq_of_lt h
    simp [h, h1, h2]
  · have h1 : t / 64 = (t - 64) / 64 + 1 := by omega
    have h2 : t % 64 = (t - 64) % 64 := by omega
    simp [h, h1, h2]

/-- Bits of the padding mask `2 ^ b - 2 ^ a`: exactly positions `a ≤ q < b`. -/
theorem testBit_two_pow_sub_two_pow {a b : Nat} (hab : a ≤ b) (q : Nat) :
    Nat.testBit (2 ^ b - 2 ^ a) q = (decide (a ≤ q) && decide (q < b)) := by
  have h : 2 ^ b - 2 ^ a = (2 ^ (b - a) - 1) <<< a := by
    rw [Nat.shiftLeft_eq, Nat.sub_mul, one_mul, ← pow_add]
    congr 2
    omega
  rw [h, Nat.testBit_shiftLeft, Nat.testBit_two_pow_sub_one]
  by_cases hq : a ≤ q
  · by_cases hb : q < b
    · have h1 : q - a < b - a := by omega
      simp [hq, hb, h1, ge_iff_le]
    · have h1 : ¬ (q - a < b - a) := by omega
      simp [hq, hb, h1, ge_iff_le]
  · simp [hq, ge_iff_le]

/-- `trailingOnes` computes the position of the lowest zero bit. -/
theorem trailingOnes_eq {k : Nat} : ∀ {w : Nat}, Nat.testBit w k = false →
    (∀ p, p < k → Nat.testBit w p = true) → trailingOnes w = k := by
  induction k with
  | zero =>
    intro w hk _
    have h0 : w % 2 = 0 := by
      rw [Nat.testBit_zero] at hk
      simpa using hk
    rw [trailingOnes]
    simp [h0]
  | succ k ih =>
    intro w hk hlow
    have h0 : Nat.testBit w 0 = true := hlow 0 (Nat.succ_pos k)
    have hw : ¬ w % 2 = 0 := by
      rw [Nat.testBit_zero] at h0
      simp at h0
      omega
    rw [trailingOnes]
    simp only [hw, dif_neg, not_false_iff]
    have htail : trailingOnes (w / 2) = k := by
      apply ih
      · rw [← Nat.testBit_add_one]
        exact hk
      · intro p hp
        rw [← Nat.testBit_add_one]
        exact hlow (p + 1) (by omega)
    omega

/-- `trailingZeros` computes the position of the lowest set bit. -/
theorem trailingZeros_eq {k : Nat} : ∀ {w : Nat}, Nat.testBit w k = true →
    (∀ p, p < k → Nat.testBit w p = false) → trailingZeros w = k := by
  induction k with
  | zero =>
    intro w hk _
    have h1 : w % 2 = 1 := by
      rw [Nat.testBit_zero] at hk
      simpa using hk
    have h0 : ¬ w = 0 := by omega
    rw [trailingZeros]
    simp [h0, h1]
  | succ k ih =>
    intro w hk hlow
    have h0 : Nat.testBit w 0 = false := hlow 0 (Nat.succ_pos k)
    have hw : w % 2 = 0 := by
      rw [Nat.testBit_zero] at h0
      simpa using h0
    have hne : ¬ w = 0 := by
      intro h
      rw [h] at hk
      simp at hk
    have hw1 : ¬ w % 2 = 1 := by omega
    rw [trailingZeros]
    simp only [hne, dif_neg, not_false_iff, hw1, if_neg]
    have htail : trailingZeros (w / 2) = k := by
      apply ih
      · rw [← Nat.testBit_add_one]
        exact hk
      · intro p hp
        rw [← Nat.testBit_add_one]
        exact hlow (p + 1) (by omega)
    omega

/-- `getD` on a mapped range: the function's value below the bound, the
default beyond. -/
theorem getD_map_range {α : Type} (n j : Nat) (f : Nat → α) (d : α) :
    ((List.range n).map f).getD j d = if j < n then f j else d := by
  rw [List.getD_eq_getElem?_getD, List.getElem?_map]
  by_cases h : j < n
  · rw [List.getElem?_range h]
    simp [h]
  · rw [List.getElem?_eq_none (by simpa using h)]
    simp [h]

/-- A bit index below capacity addresses a word inside the derived word
count. -/
theorem div_lt_numWords {i cap : Nat} (h : i < cap) :
    i / BITS_PER_WORD < (cap + BITS_PER_WORD - 1) / BITS_PER_WORD := by
  simp only [BITS_PER_WORD_eq]
  omega

/-! ### Correctness of the word-scan searches -/

/-- A word all of whose valid bits are 1, once its padding region is forced
to 1, is the all-ones word. -/
theorem or_mask_eq_allOnes {w valid : Nat} (hw : w < 2 ^ BITS_PER_WORD)
    (hv : valid ≤ BITS_PER_WORD)
    (h : ∀ q, q < valid → Nat.testBit w q = true) :
    w ||| (2 ^ BITS_PER_WORD - 2 ^ valid) = 2 ^ BITS_PER_WORD - 1 := by
  apply Nat.eq_of_testBit_eq
  intro q
  rw [Nat.testBit_or, testBit_two_pow_sub_two_pow hv, Nat.testBit_two_pow_sub_one]
  by_cases hq : q < BITS_PER_WORD
  · by_cases hq2 : q < valid
    · simp [h q hq2, hq]
    · simp [hq, hq2]
      omega
  · have hwq : Nat.testBit w q = false := by
      apply Nat.testBit_lt_two_pow
      calc w < 2 ^ BITS_PER_WORD := hw
        _ ≤ 2 ^ q := Nat.pow_le_pow_right (by norm_num) (by omega)
    simp [hwq, hq]

/-- First-zero search: when every valid bit from offset `base` on is 1, the
scan falls off the end and yields the sentinel. -/
theorem firstZeroAux_eq_neg_one (ws : List Nat) (cap : Nat) :
    ∀ base, (∀ w ∈ ws, w < 2 ^ BITS_PER_WORD) →
    (∀ t, base + t < cap → listBit ws t = true) →
    firstZeroAux ws cap base = -1 := by
  induction ws with
  | nil =>
    intro base _ _
    rfl
  | cons w rest ih =>
    intro base hb hall
    rw [firstZeroAux]
    have hmask : w ||| (2 ^ BITS_PER_WORD - 2 ^ min BITS_PER_WORD (cap - base))
        = 2 ^ BITS_PER_WORD - 1 := by
      apply or_mask_eq_allOnes (hb w (List.mem_cons_self w rest)) (Nat.min_le_left _ _)
      intro q hq
      have hq64 : q < BITS_PER_WORD := lt_of_lt_of_le hq (Nat.min_le_left _ _)
      have hqc : base + q < cap := by
        have := lt_of_lt_of_le hq (Nat.min_le_right _ _)
        omega
      have := hall q hqc
      rwa [listBit_cons, if_pos hq64] at this
    rw [if_pos hmask]
    apply ih (base + BITS_PER_WORD) (fun x hx => hb x (List.mem_cons_of_mem w hx))
    intro t ht
    have := hall (BITS_PER_WORD + t) (by omega)
    rwa [listBit_cons, if_neg (by omega), Nat.add_sub_cancel_left] at this

/-- First-zero search: when bit `i` (at or past the offset, below capacity)
is 0 and every bit before it is 1, the scan returns exactly `i`. -/
theorem firstZeroAux_eq_found (ws : List Nat) (cap i : Nat) :
    ∀ base, (∀ w ∈ ws, w < 2 ^ BITS_PER_WORD) →
    (i - base) / BITS_PER_WORD < ws.length →
    base ≤ i → i < cap →
    listBit ws (i - base) = false →
    (∀ t, base + t < i → listBit ws t = true) →
    firstZeroAux ws cap base = (i : Int) := by
  induction ws with
  | nil =>
    intro base _ hwords _ _ _ _
    simp at hwords
  | cons w rest ih =>
    intro base hb hwords hbase hcap hz hones
    rw [firstZeroAux]
    by_cases hcase : i < base + BITS_PER_WORD
    · have ht064 : i - base < BITS_PER_WORD := by omega
      have hvt0 : i - base < min BITS_PER_WORD (cap - base) := by
        simp only [BITS_PER_WORD_eq] at ht064 ⊢
        omega
      have hwbit : Nat.testBit w (i - base) = false := by
        have := hz
        rwa [listBit_cons, if_pos ht064] at this
      have hmbit : Nat.testBit
          (w ||| (2 ^ BITS_PER_WORD - 2 ^ min BITS_PER_WORD (cap - base)))
          (i - base) = false := by
        rw [Nat.testBit_or, hwbit,
          testBit_two_pow_sub_two_pow (Nat.min_le_left _ _)]
        simp
        omega
      have hne : ¬ (w ||| (2 ^ BITS_PER_WORD - 2 ^ min BITS_PER_WORD (cap - base))
          = 2 ^ BITS_PER_WORD - 1) := by
        intro heq
        rw [heq, Nat.testBit_two_pow_sub_one] at hmbit
        simp at hmbit
        omega
      rw [if_neg hne]
      have htr : trailingOnes
          (w ||| (2 ^ BITS_PER_WORD - 2 ^ min BITS_PER_WORD (cap - base)))
          = i - base := by
        apply trailingOnes_eq hmbit
        intro p hp
        rw [Nat.testBit_or]
        have hwp : Nat.testBit w p = true := by
          have := hones p (by omega)
          rwa [listBit_cons, if_pos (by omega)] at this
        simp [hwp]
      rw [htr]
      congr 1
      omega
    · have hmask : w ||| (2 ^ BITS_PER_WORD - 2 ^ min BITS_PER_WORD (cap - base))
          = 2 ^ BITS_PER_WORD - 1 := by
        apply or_mask_eq_allOnes (hb w (List.mem_cons_self w rest)) (Nat.min_le_left _ _)
        intro q hq
        have hq64 : q < BITS_PER_WORD := lt_of_lt_of_le hq (Nat.min_le_left _ _)
        have := hones q (by omega)
        rwa [listBit_cons, if_pos hq64] at this
      rw [if_pos hmask]
      apply ih (base + BITS_PER_WORD) (fun x hx => hb x (List.mem_cons_of_mem w hx))
      · simp only [List.length_cons, BITS_PER_WORD_eq] at hwords hcase ⊢
        omega
      · omega
      · exact hcap
      · have := hz
        rwa [listBit_cons, if_neg (by omega),
          show i - base - BITS_PER_WORD = i - (base + BITS_PER_WORD) by omega] at this
      · intro t ht
        have := hones (BITS_PER_WORD + t) (by omega)
        rwa [listBit_cons, if_neg (by omega), Nat.add_sub_cancel_left] at this

/-- First-one search: when every valid bit from offset `base` on is 0, the
scan yields the sentinel. -/
theorem firstOneAux_eq_neg_one (ws : List Nat) (cap : Nat) :
    ∀ base, (∀ t, base + t < cap → listBit ws t = false) →
    firstOneAux ws cap base = -1 := by
  induction ws with
  | nil =>
    intro base _
    rfl
  | cons w rest ih =>
    intro base hall
    rw [firstOneAux]
    have hmask : w &&& (2 ^ min BITS_PER_WORD (cap - base) - 1) = 0 := by
      apply Nat.eq_of_testBit_eq
      intro q
      rw [Nat.testBit_and, Nat.testBit_two_pow_sub_one, Nat.zero_testBit]
      by_cases hq : q < min BITS_PER_WORD (cap - base)
      · have hq64 : q < BITS_PER_WORD := lt_of_lt_of_le hq (Nat.min_le_left _ _)
        have hqc : base + q < cap := by
          have := lt_of_lt_of_le hq (Nat.min_le_right _ _)
          omega
        have := hall q hqc
        rw [listBit_cons, if_pos hq64] at this
        simp [this]
      · simp [hq]
    rw [if_pos hmask]
    apply ih (base + BITS_PER_WORD)
    intro t ht
    have := hall (BITS_PER_WORD + t) (by omega)
    rwa [listBit_cons, if_neg (by omega), Nat.add_sub_cancel_left] at this

/-- First-one search: when bit `i` (at or past the offset, below capacity)
is 1 and every bit before it is 0, the scan returns exactly `i`. -/
theorem firstOneAux_eq_found (ws : List Nat) (cap i : Nat) :
    ∀ base, base ≤ i → i < cap →
    listBit ws (i - base) = true →
    (∀ t, base + t < i → listBit ws t = false) →
    firstOneAux ws cap base = (i : Int) := by
  induction ws with
  | nil =>
    intro base hbase _ hone _
    simp [listBit] at hone
  | cons w rest ih =>
    intro base hbase hcap hone hzeros
    rw [firstOneAux]
    by_cases hcase : i < base + BITS_PER_WORD
    · have ht064 : i - base < BITS_PER_WORD := by omega
      have hvt0 : i - base < min BITS_PER_WORD (cap - base) := by
        simp only [BITS_PER_WORD_eq] at ht064 ⊢
        omega
      have hwbit : Nat.testBit w (i - base) = true := by
        have := hone
        rwa [listBit_cons, if_pos ht064] at this
      have hmbit : Nat.testBit (w &&& (2 ^ min BITS_PER_WORD (cap - base) - 1))
          (i - base) = true := by
        rw [Nat.testBit_and, hwbit, Nat.testBit_two_pow_sub_one]
        simp [hvt0]
      have hne : ¬ (w &&& (2 ^ min BITS_PER_WORD (cap - base) - 1) = 0) := by
        intro heq
        rw [heq, Nat.zero_testBit] at hmbit
        exact Bool.false_ne_true hmbit
      rw [if_neg hne]
      have htr : trailingZeros (w &&& (2 ^ min BITS_PER_WORD (cap - base) - 1))
          = i - base := by
        apply trailingZeros_eq hmbit
        intro p hp
        rw [Nat.testBit_and]
        have hwp : Nat.testBit w p = false := by
          have := hzeros p (by omega)
          rwa [listBit_cons, if_pos (by omega)] at this
        simp [hwp]
      rw [htr]
      congr 1
      omega
    · have hmask : w &&& (2 ^ min BITS_PER_WORD (cap - base) - 1) = 0 := by
        apply Nat.eq_of_testBit_eq
        intro q
        rw [Nat.testBit_and, Nat.testBit_two_pow_sub_one, Nat.zero_testBit]
        by_cases hq : q < min BITS_PER_WORD (cap - base)
        · have hq64 : q < BITS_PER_WORD := lt_of_lt_of_le hq (Nat.min_le_left _ _)
          have := hzeros q (by omega)
          rw [listBit_cons, if_pos hq64] at this
          simp [this]
        · simp [hq]
      rw [if_pos hmask]
      apply ih (base + BITS_PER_WORD) (by omega) hcap
      · have := hone
        rwa [listBit_cons, if_neg (by omega),
          show i - base - BITS_PER_WORD = i - (base + BITS_PER_WORD) by omega] at this
      · intro t ht
        have := hzeros (BITS_PER_WORD + t) (by omega)
        rwa [listBit_cons, if_neg (by omega), Nat.add_sub_cancel_left] at this

/-! ### The unchecked single-bit write -/

theorem setBitRaw_number_of_bits (b : Bitmap) (i : Nat) (v : Bool) :
    (b.setBitRaw i v).number_of_bits = b.number_of_bits := rfl

theorem setBitRaw_number_of_words (b : Bitmap) (i : Nat) (v : Bool) :
    (b.setBitRaw i v).number_of_words = b.number_of_words := rfl

theorem setBitRaw_length (b : Bitmap) (i : Nat) (v : Bool) :
    (b.setBitRaw i v).bitmap.length = b.bitmap.length := by
  simp [Bitmap.setBitRaw]

theorem setBitRaw_count (b : Bitmap) (i : Nat) (v : Bool) :
    (b.setBitRaw i v).count_of_ones
      = b.count_of_ones + (if b.getBit i = v then 0 else if v then 1 else -1) := rfl

/-- The word holding a valid bit index is an element of the stored list. -/
theorem getD_mem_of_lt {l : List Nat} {n : Nat} (h : n < l.length) :
    l.getD n 0 ∈ l := by
  rw [List.getD_eq_getElem?_getD, List.getElem?_eq_getElem h]
  exact List.getElem_mem _

/-- The fundamental frame property of the unchecked write: bit `i` becomes
`v` and every other bit keeps its value. -/
theorem getBit_setBitRaw (b : Bitmap) (i j : Nat) (v : Bool)
    (hlen : i / BITS_PER_WORD < b.bitmap.length) :
    (b.setBitRaw i v).getBit j = if j = i then v else b.getBit j := by
  have hmodlt : j % BITS_PER_WORD < BITS_PER_WORD := by
    simp only [BITS_PER_WORD_eq]
    omega
  simp only [Bitmap.setBitRaw, Bitmap.getBit, listBit]
  by_cases hw : j / BITS_PER_WORD = i / BITS_PER_WORD
  · rw [hw, List.getD_eq_getElem?_getD, List.getElem?_set_self hlen,
      Option.getD_some]
    by_cases hp : j % BITS_PER_WORD = i % BITS_PER_WORD
    · have hij : j = i := by
        simp only [BITS_PER_WORD_eq] at hw hp
        omega
      rw [if_pos hij, ← hp]
      cases v
      · rw [if_neg (by simp)]
        simp [clearMask, Nat.testBit_and, Nat.testBit_xor,
          Nat.testBit_two_pow_sub_one, Nat.testBit_two_pow_self, hmodlt]
      · rw [if_pos rfl]
        simp [Nat.testBit_or, Nat.testBit_two_pow_self]
    · have hij : ¬ j = i := fun h => hp (by rw [h])
      have hne : ¬ i % BITS_PER_WORD = j % BITS_PER_WORD := fun h => hp h.symm
      rw [if_neg hij]
      cases v
      · rw [if_neg (by simp)]
        simp [clearMask, Nat.testBit_and, Nat.testBit_xor,
          Nat.testBit_two_pow_sub_one, Nat.testBit_two_pow_of_ne hne, hmodlt, hw]
      · rw [if_pos rfl]
        simp [Nat.testBit_or, Nat.testBit_two_pow_of_ne hne, hw]
  · have hij : ¬ j = i := fun h => hw (by rw [h])
    rw [if_neg hij, List.getD_eq_getElem?_getD, List.getElem?_set_ne (fun h => hw h.symm),
      ← List.getD_eq_getElem?_getD]

/-! ### Counting lemmas -/

/-- Cardinality of a filtered range is unchanged when the predicate is
unchanged on the range. -/
theorem card_filter_congr {n : Nat} {f g : Nat → Bool} (h : ∀ j, j < n → f j = g j) :
    ((Finset.range n).filter (fun j => g j = true)).card
      = ((Finset.range n).filter (fun j => f j = true)).card := by
  congr 1
  apply Finset.filter_congr
  intro j hj
  rw [Finset.mem_range] at hj
  rw [h j hj]

/-- Setting a clear bit inside the range adds exactly one to the filtered
cardinality. -/
theorem card_filter_set_true {n i : Nat} (hi : i < n) {f g : Nat → Bool}
    (hfi : f i = false) (hg : ∀ j, g j = if j = i then true else f j) :
    ((Finset.range n).filter (fun j => g j = true)).card
      = ((Finset.range n).filter (fun j => f j = true)).card + 1 := by
  have hset : (Finset.range n).filter (fun j => g j = true)
      = insert i ((Finset.range n).filter (fun j => f j = true)) := by
    ext j
    simp only [Finset.mem_filter, Finset.mem_insert, Finset.mem_range, hg]
    by_cases hj : j = i
    · subst hj
      simp [hi]
    · simp [hj]
  rw [hset, Finset.card_insert_of_not_mem]
  simp [hfi]

/-- Clearing a set bit inside the range removes exactly one from the
filtered cardinality. -/
theorem card_filter_set_false {n i : Nat} (hi : i < n) {f g : Nat → Bool}
    (hfi : f i = true) (hg : ∀ j, g j = if j = i then false else f j) :
    ((Finset.range n).filter (fun j => f j = true)).card
      = ((Finset.range n).filter (fun j => g j = true)).card + 1 := by
  have hgi : g i = false := by
    rw [hg]
    simp
  have hf : ∀ j, f j = if j = i then true else g j := by
    intro j
    by_cases hj : j = i
    · subst hj
      simp [hfi]
    · simp [hj, hg j]
  exact @card_filter_set_true n i hi g f hgi hf

/-- Effect of the unchecked write on the valid-bit population count: the
same transition delta that is added to the cached tally. -/
theorem popcountValid_setBitRaw (b : Bitmap) (i : Nat)
    (hi : i < b.number_of_bits)
    (hlen : i / BITS_PER_WORD < b.bitmap.length) (v : Bool) :
    ((b.setBitRaw i v).popcountValid : Int)
      = (b.popcountValid : Int) + (if b.getBit i = v then 0 else if v then 1 else -1) := by
  have hg : ∀ j, (b.setBitRaw i v).getBit j = if j = i then v else b.getBit j :=
    fun j => getBit_setBitRaw b i j v hlen
  unfold Bitmap.popcountValid
  rw [setBitRaw_number_of_bits]
  cases v
  · by_cases hold : b.getBit i = true
    · rw [@card_filter_set_false b.number_of_bits i hi
        (fun j => b.getBit j) (fun j => (b.setBitRaw i false).getBit j) hold hg]
      simp [hold]
    · have hold2 : b.getBit i = false := by
        simp at hold
        exact hold
      rw [@card_filter_congr b.number_of_bits (fun j => b.getBit j)
        (fun j => (b.setBitRaw i false).getBit j) ?_]
      · simp [hold2]
      · intro j hj
        show b.getBit j = (b.setBitRaw i false).getBit j
        rw [hg j]
        by_cases hij : j = i
        · subst hij
          simp [hold2]
        · simp [hij]
  · by_cases hold : b.getBit i = true
    · rw [@card_filter_congr b.number_of_bits (fun j => b.getBit j)
        (fun j => (b.setBitRaw i true).getBit j) ?_]
      · simp [hold]
      · intro j hj
        show b.getBit j = (b.setBitRaw i true).getBit j
        rw [hg j]
        by_cases hij : j = i
        · subst hij
          simp [hold]
        · simp [hij]
    · have hold2 : b.getBit i = false := by
        simp at hold
        exact hold
      rw [@card_filter_set_true b.number_of_bits i hi
        (fun j => b.getBit j) (fun j => (b.setBitRaw i true).getBit j) hold2 hg]
      simp [hold2]

/-! ### Well-formedness: established at construction, preserved by writes -/

theorem WF_setBitRaw {b : Bitmap} (hWF : WF b) (i : Nat)
    (hi : i < b.number_of_bits) (v : Bool) : WF (b.setBitRaw i v) := by
  have hlen : i / BITS_PER_WORD < b.bitmap.length := by
    rw [hWF.len_eq, hWF.words_eq]
    exact div_lt_numWords hi
  have hg : ∀ j, (b.setBitRaw i v).getBit j = if j = i then v else b.getBit j :=
    fun j => getBit_setBitRaw b i j v hlen
  constructor
  · rw [setBitRaw_number_of_words, setBitRaw_number_of_bits]
    exact hWF.words_eq
  · rw [setBitRaw_length, setBitRaw_number_of_words]
    exact hWF.len_eq
  · intro w hw
    simp only [Bitmap.setBitRaw] at hw
    rcases List.mem_or_eq_of_mem_set hw with h | h
    · exact hWF.bounded w h
    · have hword : b.bitmap.getD (i / BITS_PER_WORD) 0 < 2 ^ BITS_PER_WORD :=
        hWF.bounded _ (getD_mem_of_lt hlen)
      have hpow : 2 ^ (i % BITS_PER_WORD) < 2 ^ BITS_PER_WORD := by
        apply Nat.pow_lt_pow_right (by norm_num)
        simp only [BITS_PER_WORD_eq]
        omega
      subst h
      cases v
      · simp only [Bool.false_eq_true, if_false]
        exact lt_of_le_of_lt Nat.and_le_left hword
      · simp only [if_true]
        exact Nat.or_lt_two_pow hword hpow
  · intro t ht
    rw [setBitRaw_number_of_bits] at ht
    rw [hg t, if_neg (by omega)]
    exact hWF.padding t ht
  · rw [setBitRaw_count, hWF.count, popcountValid_setBitRaw b i hi hlen v]
  · rw [setBitRaw_number_of_bits]
    exact hWF.cap_le

theorem create_ok (C v : Nat) (hC : C ≤ MAX_BITS) :
    create C v = .ok {
      number_of_bits := C
      number_of_words := (C + BITS_PER_WORD - 1) / BITS_PER_WORD
      bitmap := (List.range ((C + BITS_PER_WORD - 1) / BITS_PER_WORD)).map
        (fun j => if v = 1 then 2 ^ validBitsInWord C j - 1 else 0)
      count_of_ones := if v = 1 then (C : Int) else 0 } := by
  rw [create, if_neg (by omega)]

theorem create_err (C v : Nat) (hC : MAX_BITS < C) :
    create C v = .error .capacityExceeded := by
  rw [create, if_pos hC]

theorem create_elim {C v : Nat} {b : Bitmap} (h : create C v = .ok b) :
    C ≤ MAX_BITS
    ∧ b.number_of_bits = C
    ∧ b.number_of_words = (C + BITS_PER_WORD - 1) / BITS_PER_WORD
    ∧ b.bitmap = (List.range ((C + BITS_PER_WORD - 1) / BITS_PER_WORD)).map
        (fun j => if v = 1 then 2 ^ validBitsInWord C j - 1 else 0)
    ∧ b.count_of_ones = (if v = 1 then (C : Int) else 0) := by
  by_cases hC : MAX_BITS < C
  · rw [create_err C v hC] at h
    exact absurd h (by simp)
  · rw [create_ok C v (by omega)] at h
    injection h with h
    subst h
    exact ⟨by omega, rfl, rfl, rfl, rfl⟩

/-- Bits of a freshly constructed vector: all valid bits carry the fill
value, padding reads 0. -/
theorem create_getBit {C v : Nat} {b : Bitmap} (h : create C v = .ok b) (i : Nat) :
    b.getBit i = (decide (v = 1) && decide (i < C)) := by
  obtain ⟨hC, hbits, hwords, hmap, hcount⟩ := create_elim h
  simp only [Bitmap.getBit, listBit, hmap]
  rw [getD_map_range]
  by_cases hv : v = 1
  · simp only [hv, if_pos]
    by_cases hj : i / BITS_PER_WORD < (C + BITS_PER_WORD - 1) / BITS_PER_WORD
    · rw [if_pos hj, Nat.testBit_two_pow_sub_one]
      have hiff : (i % BITS_PER_WORD < validBitsInWord C (i / BITS_PER_WORD)) ↔ i < C := by
        simp only [validBitsInWord, BITS_PER_WORD_eq] at hj ⊢
        omega
      simp [hiff]
    · rw [if_neg hj]
      have hic : ¬ i < C := by
        simp only [BITS_PER_WORD_eq] at hj
        omega
      simp [hic]
  · simp [hv]

theorem WF_create {C v : Nat} {b : Bitmap} (h : create C v = .ok b) : WF b := by
  obtain ⟨hC, hbits, hwords, hmap, hcount⟩ := create_elim h
  have hbit := create_getBit h
  constructor
  · rw [hwords, hbits]
  · rw [hmap, hwords]
    simp
  · intro w hw
    rw [hmap] at hw
    simp only [List.mem_map, List.mem_range] at hw
    obtain ⟨j, hj, rfl⟩ := hw
    by_cases hv : v = 1
    · have h1 : validBitsInWord C j ≤ BITS_PER_WORD := Nat.min_le_left _ _
      have h2 : (2:Nat) ^ validBitsInWord C j ≤ 2 ^ BITS_PER_WORD :=
        Nat.pow_le_pow_right (by norm_num) h1
      have h3 : (0:Nat) < 2 ^ BITS_PER_WORD := Nat.pos_pow_of_pos _ (by norm_num)
      simp only [hv, if_pos]
      omega
    · have h3 : (0:Nat) < 2 ^ BITS_PER_WORD := Nat.pos_pow_of_pos _ (by norm_num)
      simp [hv, h3]
  · intro i hi
    rw [hbit i]
    rw [hbits] at hi
    have : ¬ i < C := by omega
    simp [this]
  · rw [hcount]
    unfold Bitmap.popcountValid
    rw [hbits]
    by_cases hv : v = 1
    · have hfil : (Finset.range C).filter (fun i => b.getBit i = true) = Finset.range C := by
        apply Finset.filter_true_of_mem
        intro i hi
        rw [Finset.mem_range] at hi
        rw [hbit i]
        simp [hv, hi]
      rw [hfil]
      simp [hv]
    · have hfil : (Finset.range C).filter (fun i => b.getBit i = true) = ∅ := by
        apply Finset.filter_false_of_mem
        intro i hi
        rw [hbit i]
        simp [hv]
      rw [hfil]
      simp [hv]
  · rw [hbits]
    exact hC

/-! ### Search results on well-formed states -/

theorem getFirstZero_found {b : Bitmap} (hWF : WF b) {i : Nat}
    (hi : i < b.number_of_bits) (hz : b.getBit i = false)
    (hmin : ∀ j, j < i → b.getBit j = true) :
    b.getFirstZero = (i : Int) := by
  apply firstZeroAux_eq_found b.bitmap b.number_of_bits i 0 hWF.bounded
  · rw [hWF.len_eq, hWF.words_eq]
    simpa using div_lt_numWords hi
  · omega
  · exact hi
  · simpa using hz
  · intro t ht
    exact hmin t (by omega)

theorem getFirstZero_none {b : Bitmap} (hWF : WF b)
    (hall : ∀ i, i < b.number_of_bits → b.getBit i = true) :
    b.getFirstZero = -1 :=
  firstZeroAux_eq_neg_one b.bitmap b.number_of_bits 0 hWF.bounded
    (fun t ht => hall t (by omega))

theorem getFirstOne_found {b : Bitmap} {i : Nat}
    (hi : i < b.number_of_bits) (ho : b.getBit i = true)
    (hmin : ∀ j, j < i → b.getBit j = false) :
    b.getFirstOne = (i : Int) := by
  apply firstOneAux_eq_found b.bitmap b.number_of_bits i 0 (by omega) hi
  · simpa using ho
  · intro t ht
    exact hmin t (by omega)

theorem getFirstOne_none {b : Bitmap}
    (hall : ∀ i, i < b.number_of_bits → b.getBit i = false) :
    b.getFirstOne = -1 :=
  firstOneAux_eq_neg_one b.bitmap b.number_of_bits 0
    (fun t ht => hall t (by omega))

/-- Dichotomy for the first-zero search on a well-formed state: either all
valid bits are 1 and the sentinel comes back, or the search returns the
least valid index holding a 0. -/
theorem getFirstZero_cases (b : Bitmap) (hWF : WF b) :
    (b.getFirstZero = -1 ∧ ∀ i, i < b.number_of_bits → b.getBit i = true)
    ∨ (∃ i, i < b.number_of_bits ∧ b.getBit i = false
        ∧ (∀ j, j < i → b.getBit j = true) ∧ b.getFirstZero = (i : Int)) := by
  by_cases h : ∀ i, i < b.number_of_bits → b.getBit i = true
  · exact Or.inl ⟨getFirstZero_none hWF h, h⟩
  · right
    push_neg at h
    have hex : ∃ i, i < b.number_of_bits ∧ b.getBit i = false := by
      obtain ⟨i, hi, hbit⟩ := h
      exact ⟨i, hi, by simpa using hbit⟩
    have hmin : ∀ j, j < Nat.find hex → b.getBit j = true := by
      intro j hj
      have hnot := Nat.find_min hex hj
      have hjcap : j < b.number_of_bits := lt_trans hj (Nat.find_spec hex).1
      by_contra hc
      exact hnot ⟨hjcap, by simpa using hc⟩
    exact ⟨Nat.find hex, (Nat.find_spec hex).1, (Nat.find_spec hex).2, hmin,
      getFirstZero_found hWF (Nat.find_spec hex).1 (Nat.find_spec hex).2 hmin⟩

/-- Dichotomy for the first-one search: either all valid bits are 0, or the
search returns the least valid index holding a 1. -/
theorem getFirstOne_cases (b : Bitmap) :
    (b.getFirstOne = -1 ∧ ∀ i, i < b.number_of_bits → b.getBit i = false)
    ∨ (∃ i, i < b.number_of_bits ∧ b.getBit i = true
        ∧ (∀ j, j < i → b.getBit j = false) ∧ b.getFirstOne = (i : Int)) := by
  by_cases h : ∀ i, i < b.number_of_bits → b.getBit i = false
  · exact Or.inl ⟨getFirstOne_none h, h⟩
  · right
    push_neg at h
    have hex : ∃ i, i < b.number_of_bits ∧ b.getBit i = true := by
      obtain ⟨i, hi, hbit⟩ := h
      exact ⟨i, hi, by simpa using hbit⟩
    have hmin : ∀ j, j < Nat.find hex → b.getBit j = false := by
      intro j hj
      have hnot := Nat.find_min hex hj
      have hjcap : j < b.number_of_bits := lt_trans hj (Nat.find_spec hex).1
      by_contra hc
      exact hnot ⟨hjcap, by simpa using hc⟩
    exact ⟨Nat.find hex, (Nat.find_spec hex).1, (Nat.find_spec hex).2, hmin,
      getFirstOne_found (Nat.find_spec hex).1 (Nat.find_spec hex).2 hmin⟩

theorem getAndSetFirstZero_fst (b : Bitmap) :
    (b.getAndSetFirstZero).1 = b.getFirstZero := by
  simp only [Bitmap.getAndSetFirstZero]
  split <;> rfl

theorem getAndSetFirstZero_snd_found {b : Bitmap} {i : Nat}
    (h : b.getFirstZero = (i : Int)) :
    (b.getAndSetFirstZero).2 = b.setBitRaw i true := by
  simp [Bitmap.getAndSetFirstZero, h]

theorem getAndSetFirstZero_snd_none {b : Bitmap} (h : b.getFirstZero = -1) :
    (b.getAndSetFirstZero).2 = b := by
  simp [Bitmap.getAndSetFirstZero, h]

theorem getAndClearFirstOne_fst (b : Bitmap) :
    (b.getAndClearFirstOne).1 = b.getFirstOne := by
  simp only [Bitmap.getAndClearFirstOne]
  split <;> rfl

theorem getAndClearFirstOne_snd_found {b : Bitmap} {i : Nat}
    (h : b.getFirstOne = (i : Int)) :
    (b.getAndClearFirstOne).2 = b.setBitRaw i false := by
  simp [Bitmap.getAndClearFirstOne, h]

theorem getAndClearFirstOne_snd_none {b : Bitmap} (h : b.getFirstOne = -1) :
    (b.getAndClearFirstOne).2 = b := by
  simp [Bitmap.getAndClearFirstOne, h]

/-- Every reachable state is well-formed; in particular the cached tally
always equals the valid-bit population count. -/
theorem Reachable.wf : ∀ {b : Bitmap}, Reachable b → WF b := by
  intro b h
  induction h with
  | create C v b h => exact WF_create h
  | setBitTo b i v b2 hR h ih =>
    unfold Bitmap.setBitTo at h
    by_cases hi : b.number_of_bits ≤ i
    · rw [if_pos hi] at h
      exact absurd h (by simp)
    · rw [if_neg hi] at h
      injection h with h
      rw [← h]
      exact WF_setBitRaw ih i (by omega) _
  | testAndSet b i r b2 hR h ih =>
    unfold Bitmap.testAndSet at h
    by_cases hi : b.number_of_bits ≤ i
    · rw [if_pos hi] at h
      exact absurd h (by simp)
    · rw [if_neg hi] at h
      injection h with h
      injection h with h1 h2
      rw [← h2]
      exact WF_setBitRaw ih i (by omega) _
  | testAndClear b i r b2 hR h ih =>
    unfold Bitmap.testAndClear at h
    by_cases hi : b.number_of_bits ≤ i
    · rw [if_pos hi] at h
      exact absurd h (by simp)
    · rw [if_neg hi] at h
      injection h with h
      injection h with h1 h2
      rw [← h2]
      exact WF_setBitRaw ih i (by omega) _
  | getAndSetFirstZero b hR ih =>
    rcases getFirstZero_cases b ih with ⟨h1, _⟩ | ⟨i, hi, _, _, heq⟩
    · rw [getAndSetFirstZero_snd_none h1]
      exact ih
    · rw [getAndSetFirstZero_snd_found heq]
      exact WF_setBitRaw ih i hi true
  | getAndClearFirstOne b hR ih =>
    rcases getFirstOne_cases b with ⟨h1, _⟩ | ⟨i, hi, _, _, heq⟩
    · rw [getAndClearFirstOne_snd_none h1]
      exact ih
    · rw [getAndClearFirstOne_snd_found heq]
      exact WF_setBitRaw ih i hi false

/-! ### Concrete instance used by the witnesses -/

theorem create_bm3 : create 3 0 = .ok bm3 := rfl

theorem bm3_reachable : Reachable bm3 := Reachable.create 3 0 bm3 create_bm3

/-! ### The claims -/

/-- Claim C1: in every reachable state the cached tally equals the
population count of the first `capacity` bits of the word array,
`countOnes()` returns exactly that value, `countZeroes()` returns
`capacity - countOnes()`, and `countOnes() + countZeroes() == capacity`. -/
theorem claim_C1_count_invariant (b : Bitmap) (h : Reachable b) :
    b.countOnes = (b.popcountValid : Int)
    ∧ b.countZeroes = (b.number_of_bits : Int) - b.countOnes
    ∧ b.countOnes + b.countZeroes = (b.number_of_bits : Int) := by
  refine ⟨h.wf.count, rfl, ?_⟩
  unfold Bitmap.countZeroes Bitmap.countOnes
  ring

/-- Witness for C1 at the concrete reachable state `bm3`. -/
theorem claim_C1_count_invariant_witness :
    bm3.countOnes = (bm3.popcountValid : Int)
    ∧ bm3.countZeroes = (bm3.number_of_bits : Int) - bm3.countOnes
    ∧ bm3.countOnes + bm3.countZeroes = (bm3.number_of_bits : Int) :=
  claim_C1_count_invariant bm3 bm3_reachable

/-- Claim C2: for a valid index, `testAndSet` returns the prior value of the
bit and leaves it 1, `testAndClear` returns the prior value and leaves it 0,
and in both cases the tally moves by exactly the transition delta. -/
theorem claim_C2_test_and_set_clear (b : Bitmap) (h : Reachable b) (i : Nat)
    (hi : i < b.number_of_bits) :
    (∃ b2, b.testAndSet i = .ok ((if b.getBit i then 1 else 0), b2)
      ∧ b2.getBit i = true
      ∧ b2.count_of_ones = b.count_of_ones + (if b.getBit i then 0 else 1))
    ∧ (∃ b2, b.testAndClear i = .ok ((if b.getBit i then 1 else 0), b2)
      ∧ b2.getBit i = false
      ∧ b2.count_of_ones = b.count_of_ones + (if b.getBit i then -1 else 0)) := by
  have hWF := h.wf
  have hlen : i / BITS_PER_WORD < b.bitmap.length := by
    rw [hWF.len_eq, hWF.words_eq]
    exact div_lt_numWords hi
  have hset := getBit_setBitRaw b i i true hlen
  have hclr := getBit_setBitRaw b i i false hlen
  rw [if_pos rfl] at hset hclr
  constructor
  · refine ⟨b.setBitRaw i true, ?_, hset, ?_⟩
    · unfold Bitmap.testAndSet
      rw [if_neg (by omega)]
    · rw [setBitRaw_count]
      cases hb : b.getBit i <;> simp [hb]
  · refine ⟨b.setBitRaw i false, ?_, hclr, ?_⟩
    · unfold Bitmap.testAndClear
      rw [if_neg (by omega)]
    · rw [setBitRaw_count]
      cases hb : b.getBit i <;> simp [hb]

/-- Witness for C2 at the concrete reachable state `bm3`, index 0. -/
theorem claim_C2_test_and_set_clear_witness :
    (0 : Nat) < bm3.number_of_bits
    ∧ ((∃ b2, bm3.testAndSet 0 = .ok ((if bm3.getBit 0 then 1 else 0), b2)
        ∧ b2.getBit 0 = true
        ∧ b2.count_of_ones = bm3.count_of_ones + (if bm3.getBit 0 then 0 else 1))
      ∧ (∃ b2, bm3.testAndClear 0 = .ok ((if bm3.getBit 0 then 1 else 0), b2)
        ∧ b2.getBit 0 = false
        ∧ b2.count_of_ones = bm3.count_of_ones + (if bm3.getBit 0 then -1 else 0))) :=
  ⟨by decide, claim_C2_test_and_set_clear bm3 bm3_reachable 0 (by decide)⟩

/-- Claim C3: for a valid index, `setBitTo(i, v)` succeeds, afterwards bit
`i` reads as set exactly when `v != 0`, every other bit is unchanged, and
the tally moves by +1 on a 0 to 1 transition, by -1 on 1 to 0, and by 0
otherwise. -/
theorem claim_C3_setBitTo_frame (b : Bitmap) (h : Reachable b) (i : Nat)
    (hi : i < b.number_of_bits) (v : Nat) :
    ∃ b2, b.setBitTo i v = .ok b2
      ∧ b2.isSet i = .ok (decide (v ≠ 0))
      ∧ (∀ j, j ≠ i → b2.getBit j = b.getBit j)
      ∧ b2.count_of_ones = b.count_of_ones
          + (if b.getBit i = false ∧ v ≠ 0 then 1
            else if b.getBit i = true ∧ v = 0 then -1 else 0) := by
  have hWF := h.wf
  have hlen : i / BITS_PER_WORD < b.bitmap.length := by
    rw [hWF.len_eq, hWF.words_eq]
    exact div_lt_numWords hi
  refine ⟨b.setBitRaw i (v != 0), ?_, ?_, ?_, ?_⟩
  · unfold Bitmap.setBitTo
    rw [if_neg (by omega)]
  · unfold Bitmap.isSet
    have hcap : ¬ ((b.setBitRaw i (v != 0)).number_of_bits ≤ i) := by
      rw [setBitRaw_number_of_bits]
      omega
    rw [if_neg hcap, getBit_setBitRaw b i i (v != 0) hlen, if_pos rfl]
    by_cases hv : v = 0 <;> simp [hv]
  · intro j hj
    rw [getBit_setBitRaw b i j (v != 0) hlen, if_neg hj]
  · rw [setBitRaw_count]
    by_cases hv : v = 0 <;> cases hb : b.getBit i <;> simp [hv, hb]

/-- Witness for C3 at the concrete reachable state `bm3`, index 1,
value 1. -/
theorem claim_C3_setBitTo_frame_witness :
    (1 : Nat) < bm3.number_of_bits
    ∧ (∃ b2, bm3.setBitTo 1 1 = .ok b2
      ∧ b2.isSet 1 = .ok (decide ((1:Nat) ≠ 0))
      ∧ (∀ j, j ≠ 1 → b2.getBit j = bm3.getBit j)
      ∧ b2.count_of_ones = bm3.count_of_ones
          + (if bm3.getBit 1 = false ∧ (1:Nat) ≠ 0 then 1
            else if bm3.getBit 1 = true ∧ (1:Nat) = 0 then -1 else 0)) :=
  ⟨by decide, claim_C3_setBitTo_frame bm3 bm3_reachable 1 (by decide) 1⟩

/-- Claim C4: every per-bit accessor and mutator fails with the
out-of-range error whenever `i >= capacity` (including `i == capacity`).
In this model a failing mutator returns only the error and no successor
state, so the word array and the tally are untouched by construction:
validation happens before any mutation. -/
theorem claim_C4_out_of_range (b : Bitmap) (i : Nat)
    (hi : b.number_of_bits ≤ i) :
    b.isSet i = .error .outOfRange
    ∧ b.bitValue i = .error .outOfRange
    ∧ (∀ v, b.setBitTo i v = .error .outOfRange)
    ∧ b.testAndSet i = .error .outOfRange
    ∧ b.testAndClear i = .error .outOfRange := by
  unfold Bitmap.isSet Bitmap.bitValue Bitmap.setBitTo Bitmap.testAndSet Bitmap.testAndClear
  refine ⟨?_, ?_, fun v => ?_, ?_, ?_⟩ <;> rw [if_pos hi]

/-- Witness for C4 at the concrete state `bm3` and the boundary index
`i == capacity == 3`. -/
theorem claim_C4_out_of_range_witness :
    bm3.number_of_bits ≤ 3
    ∧ (bm3.isSet 3 = .error .outOfRange
      ∧ bm3.bitValue 3 = .error .outOfRange
      ∧ (∀ v, bm3.setBitTo 3 v = .error .outOfRange)
      ∧ bm3.testAndSet 3 = .error .outOfRange
      ∧ bm3.testAndClear 3 = .error .outOfRange) :=
  ⟨by decide, claim_C4_out_of_range bm3 3 (by decide)⟩

/-- Claim C10: for a valid index the `unsigned char` results of
`bitValue`, `testAndSet` and `testAndClear` are always exactly 0 or 1,
and `bitValue(i) == 1` exactly when `isSet(i)` is true. -/
theorem claim_C10_bit_results_binary (b : Bitmap) (i : Nat)
    (hi : i < b.number_of_bits) :
    (∃ r, b.bitValue i = .ok r ∧ (r = 0 ∨ r = 1)
      ∧ (r = 1 ↔ b.isSet i = .ok true))
    ∧ (∃ r b2, b.testAndSet i = .ok (r, b2) ∧ (r = 0 ∨ r = 1))
    ∧ (∃ r b2, b.testAndClear i = .ok (r, b2) ∧ (r = 0 ∨ r = 1)) := by
  have hlt : ¬ b.number_of_bits ≤ i := by omega
  refine ⟨⟨(if b.getBit i then 1 else 0), ?_, ?_, ?_⟩,
    ⟨(if b.getBit i then 1 else 0), b.setBitRaw i true, ?_, ?_⟩,
    ⟨(if b.getBit i then 1 else 0), b.setBitRaw i false, ?_, ?_⟩⟩
  · unfold Bitmap.bitValue
    rw [if_neg hlt]
  · cases hb : b.getBit i <;> simp [hb]
  · unfold Bitmap.isSet
    rw [if_neg hlt]
    cases hb : b.getBit i <;> simp [hb]
  · unfold Bitmap.testAndSet
    rw [if_neg hlt]
  · cases hb : b.getBit i <;> simp [hb]
  · unfold Bitmap.testAndClear
    rw [if_neg hlt]
  · cases hb : b.getBit i <;> simp [hb]

/-- Witness for C10 at the concrete state `bm3`, index 2. -/
theorem claim_C10_bit_results_binary_witness :
    (2 : Nat) < bm3.number_of_bits
    ∧ ((∃ r, bm3.bitValue 2 = .ok r ∧ (r = 0 ∨ r = 1)
        ∧ (r = 1 ↔ bm3.isSet 2 = .ok true))
      ∧ (∃ r b2, bm3.testAndSet 2 = .ok (r, b2) ∧ (r = 0 ∨ r = 1))
      ∧ (∃ r b2, bm3.testAndClear 2 = .ok (r, b2) ∧ (r = 0 ∨ r = 1))) :=
  ⟨by decide, claim_C10_bit_results_binary bm3 2 (by decide)⟩

/-- Claim C6: construction with fill value 0 or 1 fails with the capacity
error exactly when the capacity exceeds `MAX_BITS` (10240); on success every
valid bit equals the fill value, `countOnes()` is `C` for an all-ones fill
and 0 for an all-zero fill, `getFirstZero()` is -1 after an all-ones fill and
`getFirstOne()` is -1 after an all-zero fill. -/
theorem claim_C6_create_contract (C v : Nat) (hv : v = 0 ∨ v = 1) :
    (create C v = .error .capacityExceeded ↔ MAX_BITS < C)
    ∧ (∀ b, create C v = .ok b →
        (∀ i, i < C → b.getBit i = decide (v = 1))
        ∧ b.countOnes = (if v = 1 then (C : Int) else 0)
        ∧ (v = 1 → b.getFirstZero = -1)
        ∧ (v = 0 → b.getFirstOne = -1)) := by
  constructor
  · constructor
    · intro h
      by_contra hC
      rw [create_ok C v (by omega)] at h
      exact absurd h (by simp)
    · intro hC
      exact create_err C v hC
  · intro b hb
    obtain ⟨hC, hbits, hwords, hmap, hcount⟩ := create_elim hb
    have hbit := create_getBit hb
    refine ⟨?_, ?_, ?_, ?_⟩
    · intro i hi
      rw [hbit i]
      simp [hi]
    · unfold Bitmap.countOnes
      rw [hcount]
    · intro hv1
      apply getFirstZero_none (WF_create hb)
      intro i hi
      rw [hbit i, hv1]
      rw [hbits] at hi
      simp [hi]
    · intro hv0
      apply getFirstOne_none
      intro i hi
      rw [hbit i, hv0]
      simp

/-- Witness for C6 at capacity 3, fill value 0. -/
theorem claim_C6_create_contract_witness :
    ((0:Nat) = 0 ∨ (0:Nat) = 1)
    ∧ ((create 3 0 = .error .capacityExceeded ↔ MAX_BITS < 3)
      ∧ (∀ b, create 3 0 = .ok b →
          (∀ i, i < 3 → b.getBit i = decide ((0:Nat) = 1))
          ∧ b.countOnes = (if (0:Nat) = 1 then (3 : Int) else 0)
          ∧ ((0:Nat) = 1 → b.getFirstZero = -1)
          ∧ ((0:Nat) = 0 → b.getFirstOne = -1))) :=
  ⟨Or.inl rfl, claim_C6_create_contract 3 0 (Or.inl rfl)⟩

/-- Claim C7: on every reachable state, `getFirstZero()` returns -1 exactly
when every valid bit is 1, returns the least valid index holding a 0 when
one exists, never returns an index at or beyond `capacity` (and neither does
`getAndSetFirstZero()`), and `countZeroes()` counts exactly the valid zero
bits, excluding padding. -/
theorem claim_C7_first_zero_correct (b : Bitmap) (h : Reachable b) :
    ((∀ i, i < b.number_of_bits → b.getBit i = true) ↔ b.getFirstZero = -1)
    ∧ (∀ i, i < b.number_of_bits → b.getBit i = false →
        (∀ j, j < i → b.getBit j = true) → b.getFirstZero = (i : Int))
    ∧ (∀ i : Nat, b.getFirstZero = (i : Int) → i < b.number_of_bits)
    ∧ (∀ i : Nat, (b.getAndSetFirstZero).1 = (i : Int) → i < b.number_of_bits)
    ∧ b.countZeroes = (((Finset.range b.number_of_bits).filter
        (fun i => b.getBit i = false)).card : Int) := by
  have hWF := h.wf
  have hbound : ∀ i : Nat, b.getFirstZero = (i : Int) → i < b.number_of_bits := by
    intro i hEq
    rcases getFirstZero_cases b hWF with ⟨h1, h2⟩ | ⟨i0, hi0, hz0, hmin0, heq0⟩
    · rw [h1] at hEq
      exact absurd hEq (by omega)
    · rw [heq0] at hEq
      have : i0 = i := by exact_mod_cast hEq
      omega
  refine ⟨⟨getFirstZero_none hWF, ?_⟩,
    fun i hi hz hmin => getFirstZero_found hWF hi hz hmin, hbound, ?_, ?_⟩
  · intro hneg i hi
    rcases getFirstZero_cases b hWF with ⟨h1, h2⟩ | ⟨i0, hi0, hz0, hmin0, heq0⟩
    · exact h2 i hi
    · rw [heq0] at hneg
      exact absurd hneg (by omega)
  · intro i hEq
    rw [getAndSetFirstZero_fst] at hEq
    exact hbound i hEq
  · unfold Bitmap.countZeroes Bitmap.countOnes
    rw [hWF.count]
    unfold Bitmap.popcountValid
    have hdiff : (Finset.range b.number_of_bits).filter (fun i => b.getBit i = false)
        = Finset.range b.number_of_bits
          \ (Finset.range b.number_of_bits).filter (fun i => b.getBit i = true) := by
      ext x
      simp only [Finset.mem_filter, Finset.mem_sdiff, Finset.mem_range]
      constructor
      · intro ⟨h1, h2⟩
        exact ⟨h1, fun hc => by simp [h2] at hc⟩
      · intro ⟨h1, h2⟩
        refine ⟨h1, ?_⟩
        cases hx : b.getBit x
        · rfl
        · exact absurd ⟨h1, hx⟩ h2
    rw [hdiff, Finset.card_sdiff (Finset.filter_subset _ _), Finset.card_range]
    have hle : ((Finset.range b.number_of_bits).filter
        (fun i => b.getBit i = true)).card ≤ b.number_of_bits := by
      calc ((Finset.range b.number_of_bits).filter (fun i => b.getBit i = true)).card
          ≤ (Finset.range b.number_of_bits).card := Finset.card_filter_le _ _
        _ = b.number_of_bits := Finset.card_range _
    omega

/-- Witness for C7 at the concrete reachable state `bm3`. -/
theorem claim_C7_first_zero_correct_witness :
    ((∀ i, i < bm3.number_of_bits → bm3.getBit i = true) ↔ bm3.getFirstZero = -1)
    ∧ (∀ i, i < bm3.number_of_bits → bm3.getBit i = false →
        (∀ j, j < i → bm3.getBit j = true) → bm3.getFirstZero = (i : Int))
    ∧ (∀ i : Nat, bm3.getFirstZero = (i : Int) → i < bm3.number_of_bits)
    ∧ (∀ i : Nat, (bm3.getAndSetFirstZero).1 = (i : Int) → i < bm3.number_of_bits)
    ∧ bm3.countZeroes = (((Finset.range bm3.number_of_bits).filter
        (fun i => bm3.getBit i = false)).card : Int) :=
  claim_C7_first_zero_correct bm3 bm3_reachable

/-- Claim C8: `asBinaryString()` has length exactly `capacity` and its
character at every position `k < capacity` is '1' exactly when `isSet(k)`
holds, and '0' otherwise. -/
theorem claim_C8_binary_string (b : Bitmap) :
    b.asBinaryString.length = b.number_of_bits
    ∧ (∀ k, k < b.number_of_bits →
        (b.asBinaryString.data.getD k ' ' = '1' ↔ b.isSet k = .ok true)
        ∧ (b.asBinaryString.data.getD k ' ' = '1'
          ∨ b.asBinaryString.data.getD k ' ' = '0')) := by
  constructor
  · simp [Bitmap.asBinaryString, String.length]
  · intro k hk
    have hchar : b.asBinaryString.data.getD k ' '
        = (if b.getBit k then '1' else '0') := by
      show ((List.range b.number_of_bits).map
        (fun k => if b.getBit k then '1' else '0')).getD k ' ' = _
      rw [getD_map_range, if_pos hk]
    have hIsSet : b.isSet k = .ok (b.getBit k) := by
      unfold Bitmap.isSet
      rw [if_neg (by omega)]
    rw [hchar, hIsSet]
    cases hb : b.getBit k <;> simp

/-- Witness for C8 at the concrete state `bm3` (the inner bounds are
discharged by applying the theorem at `bm3`). -/
theorem claim_C8_binary_string_witness :
    bm3.asBinaryString.length = bm3.number_of_bits
    ∧ (∀ k, k < bm3.number_of_bits →
        (bm3.asBinaryString.data.getD k ' ' = '1' ↔ bm3.isSet k = .ok true)
        ∧ (bm3.asBinaryString.data.getD k ' ' = '1'
          ∨ bm3.asBinaryString.data.getD k ' ' = '0')) :=
  claim_C8_binary_string bm3

/-- Claim C9: `asHexString()` has exactly `ceil(capacity / 4)` characters,
one per nibble of the logical bit pattern (most-significant nibble first);
each nibble value is below 16, and nibbles lying wholly beyond `capacity`
render as 0, so padding bits contribute no set digit. -/
theorem claim_C9_hex_string (b : Bitmap) :
    b.asHexString.length = (b.number_of_bits + 3) / 4
    ∧ (∀ p, p < (b.number_of_bits + 3) / 4 →
        b.asHexString.data.getD p ' '
          = Nat.digitChar (b.nibble ((b.number_of_bits + 3) / 4 - 1 - p)))
    ∧ (∀ j, b.nibble j < 16)
    ∧ (∀ j, b.number_of_bits ≤ 4 * j → b.nibble j = 0) := by
  have hone : ∀ t, b.logicalBitNat t ≤ 1 := by
    intro t
    unfold Bitmap.logicalBitNat
    split <;> omega
  have hzero : ∀ t, b.number_of_bits ≤ t → b.logicalBitNat t = 0 := by
    intro t ht
    unfold Bitmap.logicalBitNat
    rw [if_neg]
    intro hc
    omega
  refine ⟨?_, ?_, ?_, ?_⟩
  · simp [Bitmap.asHexString, String.length]
  · intro p hp
    show (((List.range ((b.number_of_bits + 3) / 4)).reverse).map
      (fun j => Nat.digitChar (b.nibble j))).getD p ' ' = _
    have hlen : p < (((List.range ((b.number_of_bits + 3) / 4)).reverse).map
        (fun j => Nat.digitChar (b.nibble j))).length := by
      simpa using hp
    rw [List.getD_eq_getElem?_getD, List.getElem?_eq_getElem hlen, Option.getD_some,
      List.getElem_map, List.getElem_reverse, List.getElem_range]
    simp
  · intro j
    have h0 := hone (4 * j)
    have h1 := hone (4 * j + 1)
    have h2 := hone (4 * j + 2)
    have h3 := hone (4 * j + 3)
    unfold Bitmap.nibble
    omega
  · intro j hj
    unfold Bitmap.nibble
    rw [hzero (4 * j) (by omega), hzero (4 * j + 1) (by omega),
      hzero (4 * j + 2) (by omega), hzero (4 * j + 3) (by omega)]

/-- Witness for C9 at the concrete state `bm3`. -/
theorem claim_C9_hex_string_witness :
    bm3.asHexString.length = (bm3.number_of_bits + 3) / 4
    ∧ (∀ p, p < (bm3.number_of_bits + 3) / 4 →
        bm3.asHexString.data.getD p ' '
          = Nat.digitChar (bm3.nibble ((bm3.number_of_bits + 3) / 4 - 1 - p)))
    ∧ (∀ j, bm3.nibble j < 16)
    ∧ (∀ j, bm3.number_of_bits ≤ 4 * j → bm3.nibble j = 0) :=
  claim_C9_hex_string bm3

/-- State after `n` calls of `getAndSetFirstZero` on a fresh all-zero
vector of capacity `C`: still well-formed, capacity unchanged, and exactly
the bits below `n` are set. -/
theorem iterGASFZ_state {C : Nat} {b : Bitmap} (hb : create C 0 = .ok b) :
    ∀ n, n ≤ C →
      WF (iterGASFZ b n)
      ∧ (iterGASFZ b n).number_of_bits = C
      ∧ (∀ j, (iterGASFZ b n).getBit j = decide (j < n)) := by
  intro n
  induction n with
  | zero =>
    intro _
    obtain ⟨hC, hbits, hwords, hmap, hcount⟩ := create_elim hb
    refine ⟨WF_create hb, hbits, ?_⟩
    intro j
    rw [show iterGASFZ b 0 = b from rfl, create_getBit hb j]
    simp
  | succ n ih =>
    intro hn
    obtain ⟨hWF, hbits, hchar⟩ := ih (by omega)
    have hnlt : n < (iterGASFZ b n).number_of_bits := by
      rw [hbits]
      omega
    have hz : (iterGASFZ b n).getBit n = false := by
      rw [hchar n]
      simp
    have hmin : ∀ j, j < n → (iterGASFZ b n).getBit j = true := by
      intro j hj
      rw [hchar j]
      simp [hj]
    have hfz : (iterGASFZ b n).getFirstZero = (n : Int) :=
      getFirstZero_found hWF hnlt hz hmin
    have hsnd : iterGASFZ b (n + 1) = (iterGASFZ b n).setBitRaw n true := by
      show ((iterGASFZ b n).getAndSetFirstZero).2 = _
      exact getAndSetFirstZero_snd_found hfz
    have hlen : n / BITS_PER_WORD < (iterGASFZ b n).bitmap.length := by
      rw [hWF.len_eq, hWF.words_eq]
      exact div_lt_numWords hnlt
    refine ⟨?_, ?_, ?_⟩
    · rw [hsnd]
      exact WF_setBitRaw hWF n hnlt true
    · rw [hsnd, setBitRaw_number_of_bits, hbits]
    · intro j
      rw [hsnd, getBit_setBitRaw _ n j true hlen, hchar j]
      by_cases hj : j = n
      · subst hj
        simp
      · rw [if_neg hj]
        have : (j < n) ↔ (j < n + 1) := by omega
        simp [this]

/-- Claim C5: on a vector constructed all-zero with capacity `C`, the
`(n+1)`-th call of `getAndSetFirstZero` returns index `n` for every
`n < C` — so the first `C` calls return `0 .. C-1`, each exactly once and
in ascending order — and the `(C+1)`-th call returns the sentinel -1. -/
theorem claim_C5_sequential_allocation (C : Nat) (b : Bitmap)
    (hb : create C 0 = .ok b) :
    (∀ n, n < C → ((iterGASFZ b n).getAndSetFirstZero).1 = (n : Int))
    ∧ ((iterGASFZ b C).getAndSetFirstZero).1 = -1 := by
  constructor
  · intro n hn
    obtain ⟨hWF, hbits, hchar⟩ := iterGASFZ_state hb n (by omega)
    rw [getAndSetFirstZero_fst]
    apply getFirstZero_found hWF (by rw [hbits]; omega)
    · rw [hchar n]
      simp
    · intro j hj
      rw [hchar j]
      simp [hj]
  · obtain ⟨hWF, hbits, hchar⟩ := iterGASFZ_state hb C (le_refl C)
    rw [getAndSetFirstZero_fst]
    apply getFirstZero_none hWF
    intro i hi
    rw [hchar i]
    rw [hbits] at hi
    simp [hi]

/-- Witness for C5 at capacity 3: the three calls return 0, 1, 2 and the
fourth returns -1. -/
theorem claim_C5_sequential_allocation_witness :
    (∀ n, n < 3 → ((iterGASFZ bm3 n).getAndSetFirstZero).1 = (n : Int))
    ∧ ((iterGASFZ bm3 3).getAndSetFirstZero).1 = -1 :=
  claim_C5_sequential_allocation 3 bm3 create_bm3

end BitmapModel
